import Mathlib

/-!
Verification of the filter-inference-and-matching pipeline of the Harvard
course-search repository.  The definitions below are a shallow embedding of
`server/storage.ts` (`MemStorage.searchCourses`),
`server/services/courseService.ts` (`CourseService.searchCourses`,
`CourseService.deduplicateCourses`) and
`server/services/chatService.ts` (`ChatService.extractFiltersFromMessage`),
translated line by line from the TypeScript source.  JavaScript objects with
optional keys are modelled as structures of `Option` fields, JavaScript
truthiness is made explicit, and the regular expressions of the source are
implemented as executable functions on character lists.
-/

namespace CourseSearch

/-! ## String utilities mirroring the JavaScript string operations -/

/-- `startsWithCh s p` is true when the character list `p` is an initial
segment of `s` (the primitive behind `String.prototype.includes`). -/
def startsWithCh : List Char → List Char → Bool
  | _, [] => true
  | [], _ :: _ => false
  | a :: s, b :: p => a == b && startsWithCh s p

/-- `includesAux p s` is true when `p` occurs as a contiguous run inside `s`. -/
def includesAux (p : List Char) : List Char → Bool
  | [] => p.isEmpty
  | c :: rest => startsWithCh (c :: rest) p || includesAux p rest

/-- JavaScript `s.includes(pat)`: substring containment. -/
def strIncludes (s pat : String) : Bool :=
  includesAux pat.toList s.toList

/-- `s.toLowerCase()` (ASCII): `String.toLower` written as a structural map
over the character list. -/
def lowerS (s : String) : String :=
  String.mk (s.toList.map Char.toLower)

/-- `s.toUpperCase()` (ASCII): `String.toUpper` written as a structural map
over the character list. -/
def upperS (s : String) : String :=
  String.mk (s.toList.map Char.toUpper)

/-- `s.trim()`: leading and trailing whitespace removed. -/
def jsTrim (s : String) : String :=
  String.mk
    (((s.toList.dropWhile Char.isWhitespace).reverse.dropWhile
        Char.isWhitespace).reverse)

/-- JavaScript `String.prototype.split(/\s+/)`.  Maximal whitespace runs
separate the pieces; a leading or trailing run contributes an empty piece,
and splitting the empty string yields `[""]`.  The `Option` accumulator is
`some acc` while a piece is being collected and `none` while a whitespace
run is being skipped. -/
def splitWsGo : List Char → Option (List Char) → List (List Char)
  | [], some acc => [acc.reverse]
  | [], none => [[]]
  | c :: rest, some acc =>
    if c.isWhitespace then acc.reverse :: splitWsGo rest none
    else splitWsGo rest (some (c :: acc))
  | c :: rest, none =>
    if c.isWhitespace then splitWsGo rest none
    else splitWsGo rest (some [c])

/-- JavaScript `query.split(/\s+/)` on a string. -/
def jsSplitWs (s : String) : List String :=
  (splitWsGo s.toList (some [])).map fun cs => String.mk cs

/-- Numeric value of a list of decimal digit characters. -/
def digitsToNat (ds : List Char) : Nat :=
  ds.foldl (fun a c => 10 * a + (c.toNat - 48)) 0

/-- Value of the regex match `(\d+(\.\d+)?)` starting at the head of `l`
(the head is known to be a digit), as consumed by `parseFloat`. -/
def parseNumAt (l : List Char) : ℚ :=
  let ds := l.takeWhile Char.isDigit
  let rest := l.dropWhile Char.isDigit
  let intPart : ℚ := (digitsToNat ds : ℚ)
  match rest with
  | '.' :: r2 =>
    let fs := r2.takeWhile Char.isDigit
    if fs.isEmpty then intPart
    else intPart + (digitsToNat fs : ℚ) / ((10 : ℚ) ^ fs.length)
  | _ => intPart

/-- Scan for the first digit and parse the decimal number that starts there. -/
def firstNumGo : List Char → Option ℚ
  | [] => none
  | c :: rest =>
    if c.isDigit then some (parseNumAt (c :: rest)) else firstNumGo rest

/-- `workloadStr.match(/(\d+(\.\d+)?)/)` followed by `parseFloat` on the first
capture: the first (possibly decimal) number occurring in the string, if any
(storage.ts, workload-hours filter). -/
def extractFirstNumber (s : String) : Option ℚ :=
  firstNumGo s.toList

/-- Scan for the first digit and parse the integer that starts there. -/
def firstIntGo : List Char → Option Nat
  | [] => none
  | c :: rest =>
    if c.isDigit then some (digitsToNat ((c :: rest).takeWhile Char.isDigit))
    else firstIntGo rest

/-- `s.match(/(\d+)/)` followed by `parseInt` on the first capture: the first
integer occurring in the string, if any. -/
def extractFirstInt (s : String) : Option Nat :=
  firstIntGo s.toList

/-- JavaScript `\w`: ASCII letters, digits and underscore. -/
def isWordChar (c : Char) : Bool :=
  c.isAlphanum || c == '_'

/-- A match of the (all word-character) pattern `p` at the head of `s`, with a
word boundary on each side: `prev` is the character just before `s` (if any)
and must not be a word character, and the character following the match (if
any) must not be a word character either. -/
def boundedAt (prev : Option Char) (s : List Char) (p : List Char) : Bool :=
  startsWithCh s p
    && (match prev with
        | none => true
        | some pc => !isWordChar pc)
    && (match s.drop p.length with
        | [] => true
        | c :: _ => !isWordChar c)

/-- `s.match(/\b(p1|p2|...)\b/)` for non-empty word-character alternatives:
true when some alternative occurs somewhere in `s` with word boundaries on
both sides. -/
def boundedSearch (pats : List (List Char)) : Option Char → List Char → Bool
  | _, [] => false
  | prev, c :: rest =>
    pats.any (fun p => boundedAt prev (c :: rest) p)
      || boundedSearch pats (some c) rest

/-- Word-boundary search over an optional schedule string, as in the
time-of-day filters of storage.ts (`course.schedule?.match(...)` is falsy
when the schedule is absent). -/
def schedBounded (sched : Option String) (pats : List String) : Bool :=
  match sched with
  | some s => boundedSearch (pats.map String.toList) none s.toList
  | none => false

/-- The rational `4.5` as a normalised numerator/denominator literal (a
form the kernel can compute with directly). -/
def fourPointFive : ℚ := ⟨9, 2, by norm_num, by norm_num⟩

/-! ## Data model (shared/schema.ts as consumed by the pipeline) -/

/-- A catalog record, with the fields read by the search pipeline.  Nullable
columns are `Option`; `gen_eds` and `qguide_reviews` are always arrays after
`createCourse` normalisation (storage.ts). -/
structure Course where
  id : Nat := 0
  course_id : String := ""
  title : String := ""
  professor : String := ""
  qrating : Option ℚ := none
  course_description : Option String := none
  average_workload : Option String := none
  class_size : Option Nat := none
  gen_eds : List String := []
  qguide_reviews : List String := []
  concentration : Option String := none
  schedule : Option String := none
  term : Option String := none
deriving DecidableEq, Repr, Inhabited

/-- The `genedCategory` filter value: the UI and the extractor may supply
either a boolean or a string. -/
inductive GenedVal where
  | bool (b : Bool)
  | str (s : String)
deriving DecidableEq, Repr

/-- JavaScript `toString()` on a gened-category value. -/
def GenedVal.asString : GenedVal → String
  | .bool true => "true"
  | .bool false => "false"
  | .str s => s

/-- JavaScript truthiness of a gened-category value. -/
def GenedVal.truthy : GenedVal → Bool
  | .bool b => b
  | .str s => !s.isEmpty

/-- A filter set: a JavaScript object whose recognised keys may each be
absent.  An absent key is `none` (spec §3: unset keys are absent). -/
structure Filters where
  semester : Option String := none
  query : Option String := none
  concentration : Option String := none
  genedCategory : Option GenedVal := none
  qRating : Option ℚ := none
  workloadHours : Option Nat := none
  workloadRating : Option Nat := none
  difficultyRating : Option ℚ := none
  morning : Option Bool := none
  afternoon : Option Bool := none
  evening : Option Bool := none
  noFriday : Option Bool := none
  classSize : Option String := none
  professor : Option String := none
deriving DecidableEq, Repr, Inhabited

/-- JavaScript truthiness of an optional string (absent and `""` are falsy). -/
def sTruthy : Option String → Bool
  | some s => !s.isEmpty
  | none => false

/-- JavaScript truthiness of an optional rational (absent and `0` are falsy). -/
def qTruthy : Option ℚ → Bool
  | some q => q != 0
  | none => false

/-- JavaScript truthiness of an optional natural (absent and `0` are falsy). -/
def nTruthy : Option Nat → Bool
  | some n => n != 0
  | none => false

/-- JavaScript truthiness of an optional gened-category value. -/
def gTruthy : Option GenedVal → Bool
  | some v => v.truthy
  | none => false

/-! ## Catalog Store: `MemStorage.searchCourses` (storage.ts, lines 509-756)

Each filter of the source is one successive narrowing pass over the working
list.  The guards reproduce the JavaScript truthiness tests of the source. -/

/-- Semester pass: `switch (filters.semester)` guarded by
`if (filters.semester)`; `course.term && course.term.toLowerCase().includes(..)`. -/
def passSemester (f : Filters) (cs : List Course) : List Course :=
  if sTruthy f.semester then
    if f.semester = some "fall" then
      cs.filter fun c =>
        match c.term with
        | some t => !t.isEmpty && strIncludes (lowerS t) "fall"
        | none => false
    else if f.semester = some "spring" then
      cs.filter fun c =>
        match c.term with
        | some t => !t.isEmpty && strIncludes (lowerS t) "spring"
        | none => false
    else cs
  else cs

/-- Query pass: `if (filters.query)`, substring search over title,
description, professor, course id and QGuide reviews. -/
def passQuery (f : Filters) (cs : List Course) : List Course :=
  if sTruthy f.query then
    let q := lowerS (f.query.getD "")
    cs.filter fun c =>
      strIncludes (lowerS c.title) q
        || strIncludes (lowerS (c.course_description.getD "")) q
        || strIncludes (lowerS c.professor) q
        || strIncludes (lowerS c.course_id) q
        || c.qguide_reviews.any fun r => strIncludes (lowerS r) q
  else cs

/-- Concentration pass: bidirectional case-insensitive substring match, the
`anthro` alias, and the zero-result retry against the full store by
course-code prefix `ANTHRO`. -/
def passConcentration (f : Filters) (store : List Course)
    (cs : List Course) : List Course :=
  if sTruthy f.concentration then
    let n0 := lowerS (f.concentration.getD "")
    let n := if n0 = "anthro" then "anthropology" else n0
    let filtered := cs.filter fun c =>
      match c.concentration with
      | some cc =>
        if cc.isEmpty then false
        else strIncludes (lowerS cc) n || strIncludes n (lowerS cc)
      | none => false
    if filtered.length = 0 && n = "anthropology" then
      store.filter fun c =>
        !c.course_id.isEmpty && strIncludes c.course_id "ANTHRO"
    else filtered
  else cs

/-- GenEd pass: the course must carry `GENED` in its code; `true`, `"true"`
or (case-insensitively) `"GENED"` select every GenEd course, otherwise the
requested category must occur in some `gen_eds` label. -/
def passGened (f : Filters) (cs : List Course) : List Course :=
  if gTruthy f.genedCategory then
    cs.filter fun c =>
      if !strIncludes c.course_id "GENED" then false
      else
        match f.genedCategory with
        | some v =>
          if v = .bool true || v = .str "true" || upperS v.asString = "GENED"
          then true
          else
            let cat := lowerS v.asString
            c.gen_eds.any fun g => !g.isEmpty && strIncludes (lowerS g) cat
        | none => false
  else cs

/-- QGuide rating pass: `(course.qrating || 0) >= filters.qRating`. -/
def passQRating (f : Filters) (cs : List Course) : List Course :=
  if qTruthy f.qRating then
    cs.filter fun c => f.qRating.getD 0 ≤ c.qrating.getD 0
  else cs

/-- Workload-hours pass: skipped unless the value is truthy and below the
sentinel `25`; a course with no extractable number passes conservatively,
otherwise the first extracted number must be strictly below the ceiling. -/
def passWorkload (f : Filters) (cs : List Course) : List Course :=
  match f.workloadHours with
  | some h =>
    if h ≠ 0 ∧ h < 25 then
      cs.filter fun c =>
        match extractFirstNumber (c.average_workload.getD "") with
        | none => true
        | some w => w < (h : ℚ)
    else cs
  | none => cs

/-- Legacy workload-rating pass: band the requested rating into a minimum
number of hours and keep the courses whose first extracted integer reaches
it (default `0` when nothing parses). -/
def passWorkloadRating (f : Filters) (cs : List Course) : List Course :=
  match f.workloadRating with
  | some r =>
    if r ≠ 0 then
      let minHours : Nat :=
        if 1 ≤ r ∧ r ≤ 5 then
          if r = 1 then 0 else if r = 2 then 2 else if r = 3 then 5
          else if r = 4 then 10 else 15
        else 0
      cs.filter fun c =>
        minHours ≤ (extractFirstInt (c.average_workload.getD "")).getD 0
    else cs
  | none => cs

/-- Derived difficulty of a course (storage.ts, difficulty filter): band the
first extracted workload integer, then adjust by the QGuide rating
(`course.qrating || 3.0`: absent or zero rating defaults to `3.0`). -/
def difficultyScore (c : Course) : Nat :=
  let wh := (extractFirstInt (c.average_workload.getD "")).getD 0
  let q : ℚ :=
    match c.qrating with
    | some x => if x = 0 then 3 else x
    | none => 3
  let d : Nat :=
    if 20 ≤ wh then 5 else if 15 ≤ wh then 4 else if 10 ≤ wh then 3
    else if 5 ≤ wh then 2 else 1
  if q < 3 then min 5 (d + 1)
  else if fourPointFive < q then max 1 (d - 1)
  else d

/-- Difficulty pass: derived difficulty must reach the requested floor. -/
def passDifficulty (f : Filters) (cs : List Course) : List Course :=
  if qTruthy f.difficultyRating then
    cs.filter fun c => f.difficultyRating.getD 0 ≤ (difficultyScore c : ℚ)
  else cs

/-- No-Friday pass: `course.schedule && !course.schedule.includes('Fri')`.
A course whose schedule is absent or empty is removed by this pass, because
the left conjunct is falsy. -/
def passNoFriday (f : Filters) (cs : List Course) : List Course :=
  if f.noFriday = some true then
    cs.filter fun c =>
      match c.schedule with
      | some s => !s.isEmpty && !strIncludes s "Fri"
      | none => false
  else cs

/-- Class-size pass: bucket the numeric class size
(`course.class_size || 0`). -/
def passClassSize (f : Filters) (cs : List Course) : List Course :=
  if sTruthy f.classSize then
    if f.classSize = some "small" then
      cs.filter fun c =>
        0 < c.class_size.getD 0 && c.class_size.getD 0 < 30
    else if f.classSize = some "medium" then
      cs.filter fun c =>
        30 ≤ c.class_size.getD 0 && c.class_size.getD 0 < 100
    else if f.classSize = some "large" then
      cs.filter fun c => 100 ≤ c.class_size.getD 0
    else cs
  else cs

/-- Professor pass: case-insensitive substring match. -/
def passProfessor (f : Filters) (cs : List Course) : List Course :=
  if sTruthy f.professor then
    cs.filter fun c =>
      strIncludes (lowerS c.professor) (lowerS (f.professor.getD ""))
  else cs

/-- Morning heuristic: schedule contains `am`, or a bare hour token 7-11. -/
def isMorningSched (sched : Option String) : Bool :=
  (match sched with
   | some s => strIncludes (lowerS s) "am"
   | none => false)
    || schedBounded sched ["7", "8", "9", "10", "11"]

/-- Afternoon heuristic: `pm` together with an hour token 1-4, or a bare
token 12-19 (as written in the source). -/
def isAfternoonSched (sched : Option String) : Bool :=
  ((match sched with
    | some s => strIncludes (lowerS s) "pm"
    | none => false)
     && schedBounded sched ["1", "2", "3", "4"])
    || schedBounded sched ["12", "13", "14", "15", "16", "17", "18", "19"]

/-- Evening heuristic: `pm` together with an hour token 5-11. -/
def isEveningSched (sched : Option String) : Bool :=
  (match sched with
   | some s => strIncludes (lowerS s) "pm"
   | none => false)
    && schedBounded sched ["5", "6", "7", "8", "9", "10", "11"]

/-- Time-of-day pass: OR across the requested flags (each tested with
strict `=== true`). -/
def passTime (f : Filters) (cs : List Course) : List Course :=
  if f.morning = some true || f.afternoon = some true
      || f.evening = some true then
    cs.filter fun c =>
      (f.morning = some true && isMorningSched c.schedule)
        || (f.afternoon = some true && isAfternoonSched c.schedule)
        || (f.evening = some true && isEveningSched c.schedule)
  else cs

/-- `MemStorage.searchCourses`: the passes in source order over the store. -/
def storageSearchCourses (f : Filters) (store : List Course) : List Course :=
  passTime f (passProfessor f (passClassSize f (passNoFriday f
    (passDifficulty f (passWorkloadRating f (passWorkload f
      (passQRating f (passGened f (passConcentration f store
        (passQuery f (passSemester f store)))))))))))

/-! ## Deduplicator: `CourseService.deduplicateCourses`
(courseService.ts, lines 352-387)

JavaScript `Map`s keyed by strings are modelled as insertion-ordered
association lists; `Map.set` on an existing key updates the value in place,
otherwise it appends.  JavaScript `Set`s of strings are insertion-ordered
duplicate-free lists. -/

/-- `Map.has`. -/
def mapHas {α : Type} (m : List (String × α)) (k : String) : Bool :=
  m.any fun e => e.1 == k

/-- `Map.get` (the value of the first — and only — entry with the key). -/
def mapGet {α : Type} (m : List (String × α)) (k : String) : Option α :=
  (m.find? fun e => e.1 == k).map fun e => e.2

/-- `Map.set`: update in place when present, append otherwise. -/
def mapSet {α : Type} (m : List (String × α)) (k : String) (v : α) :
    List (String × α) :=
  if mapHas m k then m.map fun e => if e.1 == k then (k, v) else e
  else m ++ [(k, v)]

/-- `Set.add` on an insertion-ordered set of strings. -/
def setAdd (s : List String) (x : String) : List String :=
  if x ∈ s then s else s ++ [x]

/-- `course.qrating || 0`. -/
def qr (c : Course) : ℚ :=
  c.qrating.getD 0

/-- `uniqueCourses.get(key)?.qrating || 0`. -/
def qrOpt : Option Course → ℚ
  | some c => qr c
  | none => 0

/-- First-pass update of `uniqueCourses`: keep the record with the highest
`qrating` (strict comparison, so the first-seen record wins ties); `{...course}`
stores a copy, which at value level is the record itself. -/
def uniqStep (uniq : List (String × Course)) (c : Course) :
    List (String × Course) :=
  if !mapHas uniq c.course_id || qrOpt (mapGet uniq c.course_id) < qr c then
    mapSet uniq c.course_id c
  else uniq

/-- First-pass update of `professorsByCourse`: ensure the entry exists, then
add the professor to its set. -/
def profsStep (profs : List (String × List String)) (c : Course) :
    List (String × List String) :=
  let profs1 :=
    if mapHas profs c.course_id then profs else profs ++ [(c.course_id, [])]
  profs1.map fun e =>
    if e.1 == c.course_id then (e.1, setAdd e.2 c.professor) else e

/-- Second-pass rewrite of the representative's professor field: the first
two professors joined with `", "`, with `" & others"` appended when the set
holds more than the two shown. -/
def rewriteProfessor (c : Course) (profSet : List String) : Course :=
  let professors := profSet.take 2
  if 1 < professors.length then
    { c with
      professor :=
        String.intercalate ", " professors
          ++ if professors.length < profSet.length then " & others" else "" }
  else c

/-- One step of the second pass over `professorsByCourse`. -/
def secondStep (u : List (String × Course)) (e : String × List String) :
    List (String × Course) :=
  if 1 < e.2.length then
    match mapGet u e.1 with
    | some course => mapSet u e.1 (rewriteProfessor course e.2)
    | none => u
  else u

/-- `CourseService.deduplicateCourses`: first pass collects professors and
representatives, second pass rewrites multi-professor representatives, and
the result is the map's values in insertion order. -/
def deduplicateCourses (courses : List Course) : List Course :=
  let st := courses.foldl
    (fun st c => (uniqStep st.1 c, profsStep st.2 c))
    (([] : List (String × Course)), ([] : List (String × List String)))
  ((st.2).foldl secondStep st.1).map fun e => e.2

/-! ## Matching Engine: `CourseService.searchCourses`
(courseService.ts, lines 150-278) -/

/-- The deterministic semester regex fallback: when no semester filter is set
and the query is non-empty, `fall`/`autumn` without `spring` sets
`semester = "fall"`, and symmetrically for `spring`. -/
def updateSemesterFilters (query : String) (f : Filters) : Filters :=
  if !sTruthy f.semester && !query.isEmpty then
    let ql := lowerS query
    if (strIncludes ql "fall" || strIncludes ql "autumn")
        && !strIncludes ql "spring" then
      { f with semester := some "fall" }
    else if strIncludes ql "spring" && !strIncludes ql "fall"
        && !strIncludes ql "autumn" then
      { f with semester := some "spring" }
    else f
  else f

/-- Synonym/abbreviation expansion of a single search term. -/
def expandTerm (t : String) : String :=
  if t = "cs" || t = "comp" then "computer"
  else if t = "classes" || t = "class" then "course"
  else t

/-- The conversational stop-word list of the source. -/
def conversationalTerms : List String :=
  ["give", "me", "show", "find", "get", "class", "classes", "course",
   "courses", "with", "in", "a", "the", "that", "has", "have", "are", "is",
   "would", "like", "want", "please", "looking", "for", "gened", "geneds",
   "gen-ed", "gen-eds"]

/-- The retained subjective-quality terms (difficulty, quality, workload). -/
def markedSubjectiveTerms : List String :=
  ["easy", "simple", "doable", "easier", "hard", "difficult", "challenging",
   "advanced", "tough",
   "good", "great", "best", "excellent", "top", "popular", "recommended",
   "highly-rated", "low", "high",
   "light", "heavy", "manageable", "reasonable", "intensive", "demanding",
   "time-consuming"]

/-- Normalised residual tokens of a query: lowercase, split on whitespace,
synonym-expanded, then conversational terms dropped unless subjective. -/
def relevantTermsOf (query : String) : List String :=
  let searchTerms := jsSplitWs (lowerS query)
  let expandedTerms := searchTerms.map expandTerm
  expandedTerms.filter fun t =>
    !conversationalTerms.contains t || markedSubjectiveTerms.contains t

/-- The searchable text of a course: the non-empty fields joined with
spaces, lowercased (`[...].filter(Boolean).join(' ').toLowerCase()`). -/
def searchableTextOf (c : Course) : String :=
  lowerS (String.intercalate " "
    (([c.course_id, c.title, c.course_description.getD "", c.professor,
       c.concentration.getD "", String.intercalate " " c.gen_eds,
       if c.concentration = some "Computer Science" then "cs comp" else ""
      ]).filter fun s => !s.isEmpty))

/-- `CourseService.searchCourses`: semester fallback, structured filtering
through the Catalog Store, then the residual text-relevance pass with its
early returns, deduplicating on every non-trivial exit. -/
def courseServiceSearchCourses (query : String) (f : Filters)
    (store : List Course) : List Course :=
  let updated := updateSemesterFilters query f
  let filteredCourses := storageSearchCourses updated store
  if (jsTrim query).isEmpty then filteredCourses
  else
    let relevantTerms := relevantTermsOf query
    if relevantTerms.isEmpty then deduplicateCourses filteredCourses
    else if gTruthy f.genedCategory
        && (strIncludes (lowerS query) "gened"
            || strIncludes (lowerS query) "gen ed"
            || strIncludes (lowerS query) "gen-ed") then
      deduplicateCourses filteredCourses
    else if sTruthy f.concentration
        && (strIncludes (lowerS query) (lowerS (f.concentration.getD ""))
            || (f.concentration = some "Computer Science"
                && strIncludes (lowerS query) "cs")) then
      deduplicateCourses filteredCourses
    else
      deduplicateCourses (filteredCourses.filter fun c =>
        relevantTerms.any fun t => strIncludes (searchableTextOf c) t)

/-! ## Filter Extractor: `ChatService.extractFiltersFromMessage`
(chatService.ts, lines 46-135) -/

/-- JavaScript object spread on one key: `{...old, ...new}` takes the new
value when the key is present in the new object. -/
def jsOverride {α : Type} (old new : Option α) : Option α :=
  match new with
  | some v => some v
  | none => old

/-- `{ ...existingFilters, ...extractedFilters }`: shallow override of every
recognised key. -/
def mergeFilters (existing extracted : Filters) : Filters where
  semester := jsOverride existing.semester extracted.semester
  query := jsOverride existing.query extracted.query
  concentration := jsOverride existing.concentration extracted.concentration
  genedCategory := jsOverride existing.genedCategory extracted.genedCategory
  qRating := jsOverride existing.qRating extracted.qRating
  workloadHours := jsOverride existing.workloadHours extracted.workloadHours
  workloadRating := jsOverride existing.workloadRating extracted.workloadRating
  difficultyRating :=
    jsOverride existing.difficultyRating extracted.difficultyRating
  morning := jsOverride existing.morning extracted.morning
  afternoon := jsOverride existing.afternoon extracted.afternoon
  evening := jsOverride existing.evening extracted.evening
  noFriday := jsOverride existing.noFriday extracted.noFriday
  classSize := jsOverride existing.classSize extracted.classSize
  professor := jsOverride existing.professor extracted.professor

/-- Outcome of the external extraction call together with the subsequent
response handling: the service call may throw (caught at lines 131-134),
the returned content may be absent (line 118), `JSON.parse` may throw
(caught at lines 127-130), or a filter object is obtained. -/
inductive ExtractionOutcome where
  | serviceError
  | absentContent
  | parseFailure
  | parsed (extracted : Filters)
deriving DecidableEq, Repr

/-- `ChatService.extractFiltersFromMessage`, as a total function of the call
outcome: every failure path returns the existing filters unchanged, and a
parsed object is spread over them. -/
def extractFiltersFromMessage (o : ExtractionOutcome) (existing : Filters) :
    Filters :=
  match o with
  | .serviceError => existing
  | .absentContent => existing
  | .parseFailure => existing
  | .parsed extracted => mergeFilters existing extracted

/-- The courses computed by `ChatService.processMessage`: the extracted
filter set is handed to `CourseService.searchCourses` together with the raw
message. -/
def processMessageCourses (o : ExtractionOutcome) (content : String)
    (filters : Filters) (store : List Course) : List Course :=
  courseServiceSearchCourses content (extractFiltersFromMessage o filters) store

/-! ## Key-indexed view of a filter set, for the shallow-override law -/

/-- The recognised filter keys (chatService.ts prompt and storage.ts). -/
inductive FilterKey where
  | semester | query | concentration | genedCategory | qRating
  | workloadHours | workloadRating | difficultyRating | morning
  | afternoon | evening | noFriday | classSize | professor
deriving DecidableEq, Repr

/-- A filter value, of any of the recognised value shapes. -/
inductive FilterVal where
  | str (s : String)
  | rat (q : ℚ)
  | nat (n : Nat)
  | bool (b : Bool)
  | gened (g : GenedVal)
deriving DecidableEq, Repr

/-- Look a key up in a filter set (absent keys are `none`). -/
def getFilterKey (f : Filters) : FilterKey → Option FilterVal
  | .semester => f.semester.map .str
  | .query => f.query.map .str
  | .concentration => f.concentration.map .str
  | .genedCategory => f.genedCategory.map .gened
  | .qRating => f.qRating.map .rat
  | .workloadHours => f.workloadHours.map .nat
  | .workloadRating => f.workloadRating.map .nat
  | .difficultyRating => f.difficultyRating.map .rat
  | .morning => f.morning.map .bool
  | .afternoon => f.afternoon.map .bool
  | .evening => f.evening.map .bool
  | .noFriday => f.noFriday.map .bool
  | .classSize => f.classSize.map .str
  | .professor => f.professor.map .str

/-! ## Reference-level model of the Deduplicator

`deduplicateCourses` above gives the value semantics of the function.  To
settle the frame claim — the second pass of the source assigns
`course.professor = ...` on an object held in `uniqueCourses`, so the claim
is about *which* object that assignment hits — the same source lines are
also modelled with explicit object identity: a heap of course records, a
reference being an index.  `uniqueCourses.set(courseKey, { ...course })`
allocates a fresh cell for the spread copy; `course.professor = ...` writes
to the cell the map holds. -/

/-- Read a heap cell. -/
def heapGet (heap : List Course) (r : Nat) : Course :=
  heap.getD r default

/-- First pass (courseService.ts, lines 357-369) at reference level: read
the record, record its professor, and when it wins, allocate a spread copy
`{...course}` as a fresh cell and point `uniqueCourses` at it. -/
def pass1HeapStep
    (st : List Course × List (String × Nat) × List (String × List String))
    (r : Nat) :
    List Course × List (String × Nat) × List (String × List String) :=
  let heap := st.1
  let uniq := st.2.1
  let profs := st.2.2
  let c := heapGet heap r
  let profs1 := profsStep profs c
  if !mapHas uniq c.course_id
      || qrOpt ((mapGet uniq c.course_id).map (heapGet heap)) < qr c then
    (heap ++ [c], mapSet uniq c.course_id heap.length, profs1)
  else (heap, uniq, profs1)

/-- Second pass (courseService.ts, lines 372-383) at reference level: the
professor assignment writes to the cell `uniqueCourses` holds. -/
def pass2HeapStep (uniq : List (String × Nat)) (heap : List Course)
    (e : String × List String) : List Course :=
  if 1 < e.2.length then
    match mapGet uniq e.1 with
    | some r =>
      let course := heapGet heap r
      let professors := e.2.take 2
      if 1 < professors.length then
        heap.set r
          { course with
            professor :=
              String.intercalate ", " professors
                ++ if professors.length < e.2.length then " & others"
                   else "" }
      else heap
    | none => heap
  else heap

/-- `deduplicateCourses` at reference level: takes the heap and the list of
references making up the input array, returns the final heap and the
references of the returned array. -/
def dedupHeap (heap : List Course) (refs : List Nat) :
    List Course × List Nat :=
  let st := refs.foldl pass1HeapStep
    (heap, ([] : List (String × Nat)), ([] : List (String × List String)))
  let heap2 := st.2.2.foldl (pass2HeapStep st.2.1) st.1
  (heap2, st.2.1.map fun e => e.2)

/-! ## Closed-form description of the Deduplicator

The fold of `deduplicateCourses` is characterised below by a per-course-code
closed form (one entry per distinct code in first-seen order, the
representative being the first record attaining the maximal rating), which
the deduplication claims are then read off from. -/

/-- First-seen duplicate removal, as performed by an insertion-ordered map
or set keyed by the elements. -/
def firstSeenDedup {α : Type} [DecidableEq α] (xs : List α) : List α :=
  xs.foldl (fun acc x => if x ∈ acc then acc else acc ++ [x]) []

/-- The distinct course codes of a list, in first-seen order. -/
def keysOf (cs : List Course) : List String :=
  firstSeenDedup (cs.map fun c => c.course_id)

/-- The records of a list sharing a given course code, in order. -/
def groupOf (cs : List Course) (k : String) : List Course :=
  cs.filter fun c => c.course_id == k

/-- The strict-comparison fold of the first pass: the current best record,
replaced only when a later record is strictly better. -/
def bestFold (h : Course) (t : List Course) : Course :=
  t.foldl (fun best c => if qr best < qr c then c else best) h

/-- The first record of a list attaining the maximal `qrating || 0` (the
strict-comparison fold of the first pass). -/
def bestOf : List Course → Option Course
  | [] => none
  | h :: t => some (bestFold h t)

/-- The representative of a course code (defaulting on an absent code). -/
def bestD (cs : List Course) (k : String) : Course :=
  (bestOf (groupOf cs k)).getD default

/-- The distinct professors of a course code, in first-seen order. -/
def instrsOf (cs : List Course) (k : String) : List String :=
  firstSeenDedup ((groupOf cs k).map fun c => c.professor)

/-- The record the Deduplicator emits for a course code: the representative,
its professor field rewritten when the code has several professors. -/
def dedupFinish (cs : List Course) (k : String) : Course :=
  if 1 < (instrsOf cs k).length then
    rewriteProfessor (bestD cs k) (instrsOf cs k)
  else bestD cs k

/-- The effect of the second pass on one map value: the professor rewrite
dictated by the `professorsByCourse` entry of its key, if any. -/
def applyPs (ps : List (String × List String)) (k : String) (b : Course) :
    Course :=
  match ps.find? (fun e => e.1 == k) with
  | some e => if 1 < e.2.length then rewriteProfessor b e.2 else b
  | none => b

/-! ## Concrete records used by witnesses and counterexamples -/

/-- Catalog row: CS50 taught by professor A, rating 4.0. -/
def rowA : Course :=
  { course_id := "CS50", title := "Intro", professor := "A", qrating := some 4 }

/-- Catalog row: CS50 taught by professor B, rating 4.5. -/
def rowB : Course :=
  { course_id := "CS50", title := "Intro", professor := "B",
    qrating := some fourPointFive }

/-- Course whose workload text parses to 12 hours. -/
def wl12 : Course :=
  { course_id := "X1", average_workload := some "12 hours per week" }

/-- Course whose workload text parses to 8 hours. -/
def wl8 : Course :=
  { course_id := "X2", average_workload := some "8 hours per week" }

/-- Course with no schedule at all. -/
def noSchedCourse : Course :=
  { course_id := "N1", title := "No schedule" }

/-- Course scheduled on Monday only. -/
def monCourse : Course :=
  { course_id := "N3", schedule := some "Mon 10am" }

/-! ## Theorems -/

/-- A string is not empty as a `Bool` exactly when it differs from `""`. -/
lemma isEmpty_false_iff (s : String) : s.isEmpty = false ↔ s ≠ "" := by
  rw [Bool.eq_false_iff]
  exact not_congr (String.isEmpty_iff s)

/-- Nothing with a non-empty pattern occurs in the empty string. -/
lemma strIncludes_empty (pat : String) (h : pat ≠ "") :
    strIncludes "" pat = false := by
  cases hb : strIncludes "" pat
  · rfl
  · have hl : pat.toList.isEmpty = true := hb
    exact absurd (String.ext (List.isEmpty_iff.mp hl)) h

/-- `Option.map` commutes with the spread override of one key. -/
lemma jsOverride_map {α β : Type} (g : α → β) (a b : Option α) :
    (jsOverride a b).map g = jsOverride (a.map g) (b.map g) := by
  cases b <;> rfl

/-- The key-indexed view of the merged filter set. -/
lemma getFilterKey_merge (f1 f2 : Filters) (k : FilterKey) :
    getFilterKey (mergeFilters f1 f2) k =
      jsOverride (getFilterKey f1 k) (getFilterKey f2 k) := by
  cases k <;> (dsimp only [getFilterKey, mergeFilters]; rw [jsOverride_map])

/-- C1: the Filter Extractor's merge `{...existing, ...extracted}` is a
shallow override: every key present in the extracted set F2 keeps F2's
value, every key absent from F2 keeps F1's value, and a key absent from
both stays absent. -/
theorem spec_c1 (f1 f2 : Filters) (k : FilterKey) :
    (∀ v, getFilterKey f2 k = some v →
        getFilterKey (mergeFilters f1 f2) k = some v)
    ∧ (getFilterKey f2 k = none →
        getFilterKey (mergeFilters f1 f2) k = getFilterKey f1 k)
    ∧ (getFilterKey f2 k = none → getFilterKey f1 k = none →
        getFilterKey (mergeFilters f1 f2) k = none) := by
  refine ⟨fun v hv => ?_, fun h2 => ?_, fun h2 h1 => ?_⟩
  · rw [getFilterKey_merge, hv]; rfl
  · rw [getFilterKey_merge, h2]; rfl
  · rw [getFilterKey_merge, h2, h1]; rfl

/-- Witness for C1 at a concrete pair of filter sets: the extracted
semester overrides, the untouched rating is preserved. -/
theorem spec_c1_witness :
    getFilterKey
        (mergeFilters { semester := some "all", qRating := some 4 }
          { semester := some "fall" }) .semester = some (.str "fall")
    ∧ getFilterKey
        (mergeFilters { semester := some "all", qRating := some 4 }
          { semester := some "fall" }) .qRating = some (.rat 4) :=
  ⟨(spec_c1 { semester := some "all", qRating := some 4 }
      { semester := some "fall" } .semester).1 _ rfl,
   ((spec_c1 { semester := some "all", qRating := some 4 }
      { semester := some "fall" } .qRating).2.1 rfl).trans rfl⟩

/-- C2: on any failure of the external extraction call — service error,
absent content, or unparseable content — the Filter Extractor returns the
existing filter set unchanged (it is a total function, so nothing is
thrown), and the course search of `processMessage` is computed on that
unchanged set. -/
theorem spec_c2 (o : ExtractionOutcome) (msg : String) (existing : Filters)
    (store : List Course)
    (h : o = .serviceError ∨ o = .absentContent ∨ o = .parseFailure) :
    extractFiltersFromMessage o existing = existing
    ∧ processMessageCourses o msg existing store =
        courseServiceSearchCourses msg existing store := by
  rcases h with rfl | rfl | rfl <;> exact ⟨rfl, rfl⟩

/-- Witness for C2: a concrete timed-out extraction call over a concrete
filter set and catalog. -/
theorem spec_c2_witness :
    extractFiltersFromMessage .serviceError { semester := some "fall" } =
        { semester := some "fall" }
    ∧ processMessageCourses .serviceError "easy classes"
        { semester := some "fall" } [rowA] =
        courseServiceSearchCourses "easy classes"
          { semester := some "fall" } [rowA] :=
  spec_c2 .serviceError "easy classes" { semester := some "fall" } [rowA]
    (Or.inl rfl)

/-- The semester pass reads no workload field. -/
lemma passSemester_wl (f : Filters) (X : Option Nat) :
    passSemester { f with workloadHours := X } = passSemester f := rfl

/-- The query pass reads no workload field. -/
lemma passQuery_wl (f : Filters) (X : Option Nat) :
    passQuery { f with workloadHours := X } = passQuery f := rfl

/-- The concentration pass reads no workload field. -/
lemma passConcentration_wl (f : Filters) (X : Option Nat) :
    passConcentration { f with workloadHours := X } = passConcentration f :=
  rfl

/-- The GenEd pass reads no workload field. -/
lemma passGened_wl (f : Filters) (X : Option Nat) :
    passGened { f with workloadHours := X } = passGened f := rfl

/-- The rating pass reads no workload field. -/
lemma passQRating_wl (f : Filters) (X : Option Nat) :
    passQRating { f with workloadHours := X } = passQRating f := rfl

/-- The legacy workload-rating pass reads `workloadRating`, not
`workloadHours`. -/
lemma passWorkloadRating_wl (f : Filters) (X : Option Nat) :
    passWorkloadRating { f with workloadHours := X } = passWorkloadRating f :=
  rfl

/-- The difficulty pass reads no workload-hours field. -/
lemma passDifficulty_wl (f : Filters) (X : Option Nat) :
    passDifficulty { f with workloadHours := X } = passDifficulty f := rfl

/-- The no-Friday pass reads no workload field. -/
lemma passNoFriday_wl (f : Filters) (X : Option Nat) :
    passNoFriday { f with workloadHours := X } = passNoFriday f := rfl

/-- The class-size pass reads no workload field. -/
lemma passClassSize_wl (f : Filters) (X : Option Nat) :
    passClassSize { f with workloadHours := X } = passClassSize f := rfl

/-- The professor pass reads no workload field. -/
lemma passProfessor_wl (f : Filters) (X : Option Nat) :
    passProfessor { f with workloadHours := X } = passProfessor f := rfl

/-- The time-of-day pass reads no workload field. -/
lemma passTime_wl (f : Filters) (X : Option Nat) :
    passTime { f with workloadHours := X } = passTime f := rfl

/-- A workload ceiling of the sentinel `25` fails the `< 25` guard, so the
pass is skipped. -/
lemma passWorkload_sentinel (f : Filters) (cs : List Course) :
    passWorkload { f with workloadHours := some 25 } cs = cs := rfl

/-- An absent workload ceiling skips the pass. -/
lemma passWorkload_none (f : Filters) (cs : List Course) :
    passWorkload { f with workloadHours := none } cs = cs := rfl

/-- C6: a workload-hours ceiling equal to the sentinel maximum 25 produces
exactly the same search result as omitting the workload-hours filter. -/
theorem spec_c6 (f : Filters) (store : List Course) :
    storageSearchCourses { f with workloadHours := some 25 } store =
      storageSearchCourses { f with workloadHours := none } store := by
  simp only [storageSearchCourses, passSemester_wl, passQuery_wl,
    passConcentration_wl, passGened_wl, passQRating_wl, passWorkload_sentinel,
    passWorkload_none, passWorkloadRating_wl, passDifficulty_wl,
    passNoFriday_wl, passClassSize_wl, passProfessor_wl, passTime_wl]

/-- Counterexample to C7 as stated: a course with an absent schedule
contains no Friday marker, yet the no-Friday filter removes it, because the
source predicate is `course.schedule && !course.schedule.includes('Fri')`
and an absent schedule makes the left conjunct falsy. -/
theorem spec_c7_counterexample :
    noSchedCourse.schedule = none
    ∧ noSchedCourse ∉
        storageSearchCourses { noFriday := some true } [noSchedCourse] :=
  ⟨rfl, by decide⟩

/-- C7 (amended): with the no-Friday filter set, a course passes iff its
schedule is present, non-empty, and free of the `Fri` marker; courses with
a missing or empty schedule are excluded, not passed. -/
theorem spec_c7 (store : List Course) (c : Course) :
    c ∈ storageSearchCourses { noFriday := some true } store ↔
      c ∈ store ∧
        ∃ s, c.schedule = some s ∧ s ≠ "" ∧ strIncludes s "Fri" = false := by
  have hred : storageSearchCourses { noFriday := some true } store =
      store.filter (fun c =>
        match c.schedule with
        | some s => !s.isEmpty && !strIncludes s "Fri"
        | none => false) := rfl
  rw [hred, List.mem_filter]
  refine and_congr_right fun _ => ?_
  cases hs : c.schedule with
  | none => simp [hs]
  | some s =>
    simp only [hs, Bool.and_eq_true, Bool.not_eq_true', Option.some.injEq]
    constructor
    · rintro ⟨he, hf⟩
      exact ⟨s, rfl, (isEmpty_false_iff s).mp he, hf⟩
    · rintro ⟨t, ht, hne, hf⟩
      cases ht
      exact ⟨(isEmpty_false_iff s).mpr hne, hf⟩

/-- Witness for the amended C7 at a concrete store and course. -/
theorem spec_c7_witness :
    monCourse ∈ storageSearchCourses { noFriday := some true } [monCourse] ↔
      monCourse ∈ [monCourse] ∧
        ∃ s, monCourse.schedule = some s ∧ s ≠ "" ∧
          strIncludes s "Fri" = false :=
  spec_c7 [monCourse] monCourse

/-- C9: the deterministic semester regex fallback of
`CourseService.searchCourses` — with no semester filter set, a query whose
lowercase form contains `fall` or `autumn` but not `spring` makes the
structured search run with `semester = "fall"` (symmetrically for
`spring`), with no contribution from the LLM extractor (the fallback is
computed after extraction, inside the Matching Engine); when a semester is
already set (a non-empty string), the filters pass through unchanged. -/
theorem spec_c9 (q : String) (f : Filters) :
    (f.semester = none →
      (strIncludes (lowerS q) "fall" || strIncludes (lowerS q) "autumn") = true →
      strIncludes (lowerS q) "spring" = false →
      updateSemesterFilters q f = { f with semester := some "fall" })
    ∧ (f.semester = none →
      strIncludes (lowerS q) "spring" = true →
      strIncludes (lowerS q) "fall" = false →
      strIncludes (lowerS q) "autumn" = false →
      updateSemesterFilters q f = { f with semester := some "spring" })
    ∧ (∀ s, f.semester = some s → s ≠ "" → updateSemesterFilters q f = f) := by
  have hq : ∀ (pat : String), pat ≠ "" →
      strIncludes (lowerS q) pat = true → q.isEmpty = false := by
    intro pat hpat hs
    cases hqe : q.isEmpty
    · rfl
    · rw [(String.isEmpty_iff q).mp hqe] at hs
      rw [show lowerS "" = "" from rfl, strIncludes_empty pat hpat] at hs
      exact hs.symm
  refine ⟨fun h0 hfa hsp => ?_, fun h0 hsp hfa hau => ?_, fun s hs hne => ?_⟩
  · have hqe : q.isEmpty = false := by
      rcases Bool.or_eq_true_iff.mp hfa with h | h
      · exact hq "fall" (by decide) h
      · exact hq "autumn" (by decide) h
    unfold updateSemesterFilters
    simp [h0, sTruthy, hqe, hfa, hsp]
  · have hqe : q.isEmpty = false := hq "spring" (by decide) hsp
    unfold updateSemesterFilters
    simp [h0, sTruthy, hqe, hfa, hsp, hau]
  · unfold updateSemesterFilters
    have : s.isEmpty = false := by
      cases he : s.isEmpty
      · rfl
      · exact absurd ((String.isEmpty_iff s).mp he) hne
    simp [hs, sTruthy, this]

/-- Witness for C9: the query `"fall courses"` sets the semester to fall on
an empty filter set, and leaves an already-set spring semester untouched. -/
theorem spec_c9_witness :
    updateSemesterFilters "fall courses" {} =
        { semester := some "fall" }
    ∧ updateSemesterFilters "fall courses" { semester := some "spring" } =
        { semester := some "spring" } :=
  ⟨(spec_c9 "fall courses" {}).1 rfl (by decide) (by decide),
   (spec_c9 "fall courses" { semester := some "spring" }).2.2 "spring" rfl
     (by decide)⟩

/-- C3: for a positive workload ceiling strictly below the sentinel 25 (a
ceiling of 0 is JavaScript-falsy and would disable the filter; the valid
ceilings of the interface are 2, 5, 10, 15, 20, 25), the workload filter
keeps a course iff no number can be extracted from its workload text
(pass-by-default) or the first extracted number is strictly below the
ceiling. -/
theorem spec_c3 (store : List Course) (c : Course) (h : Nat) (h0 : 0 < h)
    (h25 : h < 25) :
    c ∈ storageSearchCourses { workloadHours := some h } store ↔
      c ∈ store ∧
        (extractFirstNumber (c.average_workload.getD "") = none ∨
          ∃ w, extractFirstNumber (c.average_workload.getD "") = some w ∧
            w < (h : ℚ)) := by
  have hred : storageSearchCourses { workloadHours := some h } store =
      store.filter (fun c =>
        match extractFirstNumber (c.average_workload.getD "") with
        | none => true
        | some w => decide (w < (h : ℚ))) := by
    show passWorkload { workloadHours := some h } store = _
    unfold passWorkload
    simp [h0.ne', h25]
  rw [hred, List.mem_filter]
  refine and_congr_right fun _ => ?_
  cases hw : extractFirstNumber (c.average_workload.getD "") <;> simp [hw]

/-- Witness for C3: ceiling 10 against the 8-hour course. -/
theorem spec_c3_witness :
    0 < 10 ∧ 10 < 25 ∧
      (wl8 ∈ storageSearchCourses { workloadHours := some 10 } [wl12, wl8] ↔
        wl8 ∈ [wl12, wl8] ∧
          (extractFirstNumber ((wl8.average_workload).getD "") = none ∨
            ∃ w, extractFirstNumber ((wl8.average_workload).getD "") = some w ∧
              w < (10 : ℚ))) :=
  ⟨by decide, by decide,
   spec_c3 [wl12, wl8] wl8 10 (by decide) (by decide)⟩

/-- The semester pass only discards elements. -/
lemma mem_passSemester {f : Filters} {cs : List Course} {c : Course}
    (h : c ∈ passSemester f cs) : c ∈ cs := by
  unfold passSemester at h
  repeat' split at h
  all_goals first | exact (List.mem_filter.mp h).1 | exact h

/-- The query pass only discards elements. -/
lemma mem_passQuery {f : Filters} {cs : List Course} {c : Course}
    (h : c ∈ passQuery f cs) : c ∈ cs := by
  unfold passQuery at h
  repeat' split at h
  all_goals first | exact (List.mem_filter.mp h).1 | exact h

/-- The concentration pass emits elements of its input or, through the
`ANTHRO` retry, of the full store. -/
lemma mem_passConcentration {f : Filters} {store cs : List Course} {c : Course}
    (h : c ∈ passConcentration f store cs) : c ∈ cs ∨ c ∈ store := by
  unfold passConcentration at h
  dsimp only at h
  repeat' split at h
  all_goals
    first
      | exact Or.inr (List.mem_filter.mp h).1
      | exact Or.inl (List.mem_filter.mp h).1
      | exact Or.inl h

/-- The GenEd pass only discards elements. -/
lemma mem_passGened {f : Filters} {cs : List Course} {c : Course}
    (h : c ∈ passGened f cs) : c ∈ cs := by
  unfold passGened at h
  repeat' split at h
  all_goals first | exact (List.mem_filter.mp h).1 | exact h

/-- The rating pass only discards elements. -/
lemma mem_passQRating {f : Filters} {cs : List Course} {c : Course}
    (h : c ∈ passQRating f cs) : c ∈ cs := by
  unfold passQRating at h
  repeat' split at h
  all_goals first | exact (List.mem_filter.mp h).1 | exact h

/-- The workload pass only discards elements. -/
lemma mem_passWorkload {f : Filters} {cs : List Course} {c : Course}
    (h : c ∈ passWorkload f cs) : c ∈ cs := by
  unfold passWorkload at h
  repeat' split at h
  all_goals first | exact (List.mem_filter.mp h).1 | exact h

/-- The legacy workload-rating pass only discards elements. -/
lemma mem_passWorkloadRating {f : Filters} {cs : List Course} {c : Course}
    (h : c ∈ passWorkloadRating f cs) : c ∈ cs := by
  unfold passWorkloadRating at h
  dsimp only at h
  repeat' split at h
  all_goals first | exact (List.mem_filter.mp h).1 | exact h

/-- The difficulty pass only discards elements. -/
lemma mem_passDifficulty {f : Filters} {cs : List Course} {c : Course}
    (h : c ∈ passDifficulty f cs) : c ∈ cs := by
  unfold passDifficulty at h
  repeat' split at h
  all_goals first | exact (List.mem_filter.mp h).1 | exact h

/-- The no-Friday pass only discards elements. -/
lemma mem_passNoFriday {f : Filters} {cs : List Course} {c : Course}
    (h : c ∈ passNoFriday f cs) : c ∈ cs := by
  unfold passNoFriday at h
  repeat' split at h
  all_goals first | exact (List.mem_filter.mp h).1 | exact h

/-- The class-size pass only discards elements. -/
lemma mem_passClassSize {f : Filters} {cs : List Course} {c : Course}
    (h : c ∈ passClassSize f cs) : c ∈ cs := by
  unfold passClassSize at h
  repeat' split at h
  all_goals first | exact (List.mem_filter.mp h).1 | exact h

/-- The professor pass only discards elements. -/
lemma mem_passProfessor {f : Filters} {cs : List Course} {c : Course}
    (h : c ∈ passProfessor f cs) : c ∈ cs := by
  unfold passProfessor at h
  repeat' split at h
  all_goals first | exact (List.mem_filter.mp h).1 | exact h

/-- The time-of-day pass only discards elements. -/
lemma mem_passTime {f : Filters} {cs : List Course} {c : Course}
    (h : c ∈ passTime f cs) : c ∈ cs := by
  unfold passTime at h
  repeat' split at h
  all_goals first | exact (List.mem_filter.mp h).1 | exact h

/-- Every course returned by the Catalog Store search is a record of the
store: the passes read but never produce new records. -/
lemma storageSearch_subset (f : Filters) (store : List Course) (c : Course)
    (h : c ∈ storageSearchCourses f store) : c ∈ store := by
  unfold storageSearchCourses at h
  rcases mem_passConcentration
      (mem_passGened (mem_passQRating (mem_passWorkload
        (mem_passWorkloadRating (mem_passDifficulty (mem_passNoFriday
          (mem_passClassSize (mem_passProfessor (mem_passTime h)))))))))
    with h' | h'
  · exact mem_passSemester (mem_passQuery h')
  · exact h'

/-- Setting a cell at or beyond `n` leaves the first `n` cells alone. -/
lemma take_set_of_le {α : Type} (l : List α) (r : Nat) (v : α) (n : Nat)
    (hn : n ≤ r) : (l.set r v).take n = l.take n := by
  induction l generalizing r n with
  | nil => simp
  | cons a t ih =>
    cases r with
    | zero =>
      have : n = 0 := Nat.le_zero.mp hn
      simp [this]
    | succ r' =>
      cases n with
      | zero => simp
      | succ n' =>
        simp only [List.set, List.take]
        rw [ih r' n' (Nat.le_of_succ_le_succ hn)]

/-- An entry of the map after `Map.set` is an old entry or the set pair. -/
lemma mem_mapSet {α : Type} {m : List (String × α)} {k : String} {v : α}
    {e : String × α} (h : e ∈ mapSet m k v) : e ∈ m ∨ e = (k, v) := by
  unfold mapSet at h
  split at h
  · rcases List.mem_map.mp h with ⟨e0, he0, hf⟩
    split at hf
    · exact Or.inr hf.symm
    · exact Or.inl (hf ▸ he0)
  · rcases List.mem_append.mp h with h' | h'
    · exact Or.inl h'
    · simp only [List.mem_singleton] at h'
      exact Or.inr h'

/-- A successful `Map.get` returns the value of some entry. -/
lemma mapGet_mem {α : Type} {m : List (String × α)} {k : String} {v : α}
    (h : mapGet m k = some v) : ∃ e ∈ m, e.2 = v := by
  unfold mapGet at h
  cases hf : m.find? (fun e => e.1 == k) with
  | none => rw [hf] at h; cases h
  | some e =>
    rw [hf] at h
    exact ⟨e, List.mem_of_find?_eq_some hf, by injection h⟩

/-- One step of the first heap pass either allocates the spread copy at the
end of the heap or leaves heap and map alone. -/
lemma pass1HeapStep_cases (heap : List Course) (uniq : List (String × Nat))
    (profs : List (String × List String)) (r : Nat) :
    pass1HeapStep (heap, uniq, profs) r =
        (heap ++ [heapGet heap r],
          mapSet uniq (heapGet heap r).course_id heap.length,
          profsStep profs (heapGet heap r))
    ∨ pass1HeapStep (heap, uniq, profs) r =
        (heap, uniq, profsStep profs (heapGet heap r)) := by
  unfold pass1HeapStep
  dsimp only
  split
  · exact Or.inl rfl
  · exact Or.inr rfl

/-- Through the first heap pass, the original heap stays a prefix, and
every reference stored in `uniqueCourses` points at or beyond position `n`
(the allocation frontier never retreats). -/
lemma pass1_facts (n : Nat) :
    ∀ (rs : List Nat) (heap : List Course) (uniq : List (String × Nat))
      (profs : List (String × List String)),
      n ≤ heap.length → (∀ e ∈ uniq, n ≤ e.2) →
      heap <+: (rs.foldl pass1HeapStep (heap, uniq, profs)).1
      ∧ ∀ e ∈ (rs.foldl pass1HeapStep (heap, uniq, profs)).2.1, n ≤ e.2 := by
  intro rs
  induction rs with
  | nil => exact fun heap uniq profs hn hu => ⟨List.prefix_refl heap, hu⟩
  | cons r rs ih =>
    intro heap uniq profs hn hu
    rw [List.foldl_cons]
    rcases pass1HeapStep_cases heap uniq profs r with hc | hc
    · rw [hc]
      have hstep := ih (heap ++ [heapGet heap r])
        (mapSet uniq (heapGet heap r).course_id heap.length)
        (profsStep profs (heapGet heap r))
        (by simpa using Nat.le_succ_of_le hn)
        (by
          intro e he
          rcases mem_mapSet he with h' | h'
          · exact hu e h'
          · rw [h']; exact hn)
      exact ⟨(List.prefix_append heap [heapGet heap r]).trans hstep.1,
        hstep.2⟩
    · rw [hc]
      exact ih heap uniq (profsStep profs (heapGet heap r)) hn hu

/-- The second heap pass writes only at references held by `uniqueCourses`,
so the first `n` cells survive when every such reference is `≥ n`. -/
lemma pass2_take (uniq : List (String × Nat)) (n : Nat)
    (hu : ∀ e ∈ uniq, n ≤ e.2) :
    ∀ (ps : List (String × List String)) (heap : List Course),
      (ps.foldl (pass2HeapStep uniq) heap).take n = heap.take n := by
  intro ps
  induction ps with
  | nil => intro heap; rfl
  | cons e ps ih =>
    intro heap
    rw [List.foldl_cons, ih]
    unfold pass2HeapStep
    split
    · cases hg : mapGet uniq e.1 with
      | none => rfl
      | some r =>
        dsimp only
        split
        · rcases mapGet_mem hg with ⟨e', he', hv⟩
          exact take_set_of_le _ _ _ _ (hv ▸ hu e' he')
        · rfl
    · rfl

/-- C10: search and deduplication never mutate the stored records.  Part
one: every record the Catalog Store search returns is (field for field) a
record of the store — the passes only filter.  Part two: in the
reference-level model of the Deduplicator, the cells of the original heap
are untouched — the professor rewrite of the second pass lands on the
fresh cells allocated for the `{...course}` copies, never on an original. -/
theorem spec_c10 :
    (∀ (f : Filters) (store : List Course) (c : Course),
        c ∈ storageSearchCourses f store → c ∈ store)
    ∧ ∀ (heap : List Course) (refs : List Nat),
        (dedupHeap heap refs).1.take heap.length = heap := by
  constructor
  · exact storageSearch_subset
  · intro heap refs
    unfold dedupHeap
    dsimp only
    obtain ⟨hpre, hu⟩ :=
      pass1_facts heap.length refs heap [] [] le_rfl (by intro e he; cases he)
    rw [pass2_take _ heap.length hu]
    obtain ⟨t, ht⟩ := hpre
    rw [← ht, List.take_left]

/-- Witness for C10: a concrete search result is a stored record, and a
concrete two-row deduplication leaves the two original heap cells intact. -/
theorem spec_c10_witness :
    wl8 ∈ [wl12, wl8]
    ∧ (dedupHeap [wl12, wl8] [0, 1]).1.take 2 = [wl12, wl8] :=
  ⟨spec_c10.1 { workloadHours := some 25 } [wl12, wl8] wl8 (by decide),
   spec_c10.2 [wl12, wl8] [0, 1]⟩

/-! ### First-seen deduplication and per-code grouping -/

/-- Membership through the first-seen fold. -/
lemma mem_fsFold {α : Type} [DecidableEq α] (xs : List α) :
    ∀ (acc : List α) (y : α),
      y ∈ xs.foldl (fun acc x => if x ∈ acc then acc else acc ++ [x]) acc ↔
        y ∈ acc ∨ y ∈ xs := by
  induction xs with
  | nil => simp
  | cons x xs ih =>
    intro acc y
    rw [List.foldl_cons, ih]
    by_cases hx : x ∈ acc
    · simp only [if_pos hx, List.mem_cons]
      constructor
      · rintro (h | h)
        · exact Or.inl h
        · exact Or.inr (Or.inr h)
      · rintro (h | h | h)
        · exact Or.inl h
        · exact Or.inl (h ▸ hx)
        · exact Or.inr h
    · simp only [if_neg hx, List.mem_append, List.mem_singleton,
        List.mem_cons]
      tauto

/-- `firstSeenDedup` preserves membership. -/
lemma mem_firstSeenDedup {α : Type} [DecidableEq α] {xs : List α} {y : α} :
    y ∈ firstSeenDedup xs ↔ y ∈ xs := by
  unfold firstSeenDedup
  rw [mem_fsFold]
  simp

/-- The first-seen fold keeps the accumulator duplicate-free. -/
lemma nodup_fsFold {α : Type} [DecidableEq α] (xs : List α) :
    ∀ (acc : List α), acc.Nodup →
      (xs.foldl (fun acc x => if x ∈ acc then acc else acc ++ [x]) acc).Nodup := by
  induction xs with
  | nil => exact fun acc h => h
  | cons x xs ih =>
    intro acc hacc
    rw [List.foldl_cons]
    by_cases hx : x ∈ acc
    · rw [if_pos hx]; exact ih acc hacc
    · rw [if_neg hx]
      exact ih _ (by simp [List.nodup_append, hacc, hx])

/-- `firstSeenDedup` is duplicate-free. -/
lemma nodup_firstSeenDedup {α : Type} [DecidableEq α] (xs : List α) :
    (firstSeenDedup xs).Nodup :=
  nodup_fsFold xs [] List.nodup_nil

/-- One more element extends the first-seen list by a membership test. -/
lemma firstSeenDedup_concat {α : Type} [DecidableEq α] (xs : List α) (x : α) :
    firstSeenDedup (xs ++ [x]) =
      if x ∈ firstSeenDedup xs then firstSeenDedup xs
      else firstSeenDedup xs ++ [x] := by
  unfold firstSeenDedup
  rw [List.foldl_append, List.foldl_cons, List.foldl_nil]

/-- The first-seen fold of a duplicate-free list appends it whole. -/
lemma fsFold_of_nodup {α : Type} [DecidableEq α] (xs : List α) :
    ∀ (acc : List α), (∀ x ∈ xs, x ∉ acc) → xs.Nodup →
      xs.foldl (fun acc x => if x ∈ acc then acc else acc ++ [x]) acc =
        acc ++ xs := by
  induction xs with
  | nil => simp
  | cons x xs ih =>
    intro acc hdis hnd
    rw [List.foldl_cons, if_neg (hdis x (List.mem_cons_self x xs))]
    rw [ih (acc ++ [x])]
    · simp
    · intro y hy
      simp only [List.mem_append, List.mem_singleton]
      rintro (h | rfl)
      · exact hdis y (List.mem_cons_of_mem x hy) h
      · exact (List.nodup_cons.mp hnd).1 hy
    · exact (List.nodup_cons.mp hnd).2

/-- `firstSeenDedup` fixes duplicate-free lists. -/
lemma firstSeenDedup_of_nodup {α : Type} [DecidableEq α] {xs : List α}
    (h : xs.Nodup) : firstSeenDedup xs = xs := by
  unfold firstSeenDedup
  rw [fsFold_of_nodup xs [] (by simp) h]
  simp

/-- Extending the catalog extends the key list by a membership test. -/
lemma keysOf_concat (cs : List Course) (c : Course) :
    keysOf (cs ++ [c]) =
      if c.course_id ∈ keysOf cs then keysOf cs
      else keysOf cs ++ [c.course_id] := by
  unfold keysOf
  rw [List.map_append, List.map_singleton, firstSeenDedup_concat]

/-- A key occurs exactly when some record carries it. -/
lemma mem_keysOf {cs : List Course} {k : String} :
    k ∈ keysOf cs ↔ ∃ c ∈ cs, c.course_id = k := by
  unfold keysOf
  rw [mem_firstSeenDedup, List.mem_map]

/-- The key list is duplicate-free. -/
lemma nodup_keysOf (cs : List Course) : (keysOf cs).Nodup :=
  nodup_firstSeenDedup _

/-- Grouping after appending one record. -/
lemma groupOf_concat (cs : List Course) (c : Course) (k : String) :
    groupOf (cs ++ [c]) k =
      groupOf cs k ++ if c.course_id = k then [c] else [] := by
  unfold groupOf
  rw [List.filter_append]
  congr 1
  by_cases hk : c.course_id = k <;> simp [hk]

/-- An absent key has an empty group. -/
lemma groupOf_eq_nil {cs : List Course} {k : String}
    (h : k ∉ keysOf cs) : groupOf cs k = [] := by
  unfold groupOf
  rw [List.filter_eq_nil_iff]
  intro c hc hbeq
  exact h (mem_keysOf.mpr ⟨c, hc, by simpa using hbeq⟩)

/-- A present key has a non-empty group. -/
lemma groupOf_ne_nil {cs : List Course} {k : String}
    (h : k ∈ keysOf cs) : groupOf cs k ≠ [] := by
  rcases mem_keysOf.mp h with ⟨c, hc, rfl⟩
  intro hnil
  have : c ∈ groupOf cs c.course_id := by
    unfold groupOf
    exact List.mem_filter.mpr ⟨hc, by simp⟩
  rw [hnil] at this
  cases this

/-- Every record of a group carries the group's key. -/
lemma course_id_of_mem_groupOf {cs : List Course} {k : String} {c : Course}
    (h : c ∈ groupOf cs k) : c.course_id = k := by
  unfold groupOf at h
  simpa using (List.mem_filter.mp h).2

/-! ### The representative fold -/

/-- Folding one more candidate is one strict comparison. -/
lemma bestOf_concat (g : List Course) (c : Course) :
    bestOf (g ++ [c]) =
      some (match bestOf g with
        | none => c
        | some b => if qr b < qr c then c else b) := by
  cases g with
  | nil => rfl
  | cons h t =>
    show some (bestFold h (t ++ [c])) =
      some (if qr (bestFold h t) < qr c then c else bestFold h t)
    unfold bestFold
    rw [List.foldl_append, List.foldl_cons, List.foldl_nil]

/-- The fold result is an element of the folded list. -/
lemma bestFold_mem : ∀ (t : List Course) (h : Course),
    bestFold h t ∈ h :: t := by
  intro t
  induction t with
  | nil => intro h; exact List.mem_singleton.mpr rfl
  | cons c t ih =>
    intro h
    show bestFold (if qr h < qr c then c else h) t ∈ h :: c :: t
    rcases List.mem_cons.mp (ih (if qr h < qr c then c else h)) with he | he
    · rw [he]
      by_cases hc : qr h < qr c
      · rw [if_pos hc]; exact List.mem_cons_of_mem h (List.mem_cons_self c t)
      · rw [if_neg hc]; exact List.mem_cons_self h _
    · exact List.mem_cons_of_mem h (List.mem_cons_of_mem c he)

/-- A successful `bestOf` returns an element of the list. -/
lemma bestOf_mem {g : List Course} {b : Course} (h : bestOf g = some b) :
    b ∈ g := by
  cases g with
  | nil => cases h
  | cons x t =>
    have : bestFold x t = b := by injection h
    exact this ▸ bestFold_mem t x

/-- The fold keeps the first record attaining the maximal rating: the list
splits around the result, with everything before it strictly worse and
everything after it no better. -/
lemma bestFold_decomp : ∀ (t : List Course) (h : Course),
    ∃ g1 g2, h :: t = g1 ++ bestFold h t :: g2
      ∧ (∀ x ∈ g1, qr x < qr (bestFold h t))
      ∧ ∀ x ∈ g2, qr x ≤ qr (bestFold h t) := by
  intro t
  induction t with
  | nil => exact fun h => ⟨[], [], rfl, by simp, by simp⟩
  | cons c t ih =>
    intro h
    have hstep : bestFold h (c :: t) =
        bestFold (if qr h < qr c then c else h) t := rfl
    by_cases hc : qr h < qr c
    · rw [hstep, if_pos hc]
      obtain ⟨g1, g2, hdec, h1, h2⟩ := ih c
      have hcb : qr c ≤ qr (bestFold c t) := by
        have hcmem : c ∈ g1 ++ bestFold c t :: g2 := by
          rw [← hdec]; exact List.mem_cons_self c t
        rcases List.mem_append.mp hcmem with hm | hm
        · exact le_of_lt (h1 c hm)
        · rcases List.mem_cons.mp hm with hm | hm
          · exact le_of_eq (congrArg qr hm)
          · exact h2 c hm
      exact ⟨h :: g1, g2, by rw [List.cons_append, ← hdec],
        fun x hx => by
          rcases List.mem_cons.mp hx with rfl | hx
          · exact lt_of_lt_of_le hc hcb
          · exact h1 x hx,
        h2⟩
    · rw [hstep, if_neg hc]
      have hch : qr c ≤ qr h := le_of_not_lt hc
      obtain ⟨g1, g2, hdec, h1, h2⟩ := ih h
      cases g1 with
      | nil =>
        rw [List.nil_append] at hdec
        have hb : h = bestFold h t := (List.cons_eq_cons.mp hdec).1
        have ht : t = g2 := (List.cons_eq_cons.mp hdec).2
        refine ⟨[], c :: t, ?_, by simp, ?_⟩
        · rw [List.nil_append, ← hb]
        · intro x hx
          rcases List.mem_cons.mp hx with rfl | hx
          · rw [← hb]; exact hch
          · exact h2 x (ht ▸ hx)
      | cons a g1' =>
        rw [List.cons_append] at hdec
        have ha : a = h := ((List.cons_eq_cons.mp hdec).1).symm
        have ht : t = g1' ++ bestFold h t :: g2 :=
          (List.cons_eq_cons.mp hdec).2
        have hhb : qr h < qr (bestFold h t) := by
          have := h1 a (List.mem_cons_self a g1')
          rw [ha] at this
          exact this
        refine ⟨h :: c :: g1', g2, ?_, ?_, h2⟩
        · rw [List.cons_append, List.cons_append, ← ht]
        · intro x hx
          rcases List.mem_cons.mp hx with rfl | hx
          · exact hhb
          rcases List.mem_cons.mp hx with rfl | hx
          · exact lt_of_le_of_lt hch hhb
          · exact h1 x (ha ▸ List.mem_cons_of_mem a hx)

/-! ### Association lists in mapped form -/

/-- `Map.has` on a map in mapped form is key membership. -/
lemma mapHas_mapKey {α : Type} (ks : List String) (g : String → α)
    (x : String) :
    mapHas (ks.map fun k => (k, g k)) x = true ↔ x ∈ ks := by
  unfold mapHas
  simp

/-- `find?` on a map in mapped form returns the entry of the key. -/
lemma find?_mapKey {α : Type} {ks : List String} (g : String → α)
    {x : String} (h : x ∈ ks) :
    (ks.map fun k => (k, g k)).find? (fun e => e.1 == x) = some (x, g x) := by
  induction ks with
  | nil => cases h
  | cons k ks ih =>
    rw [List.map_cons]
    by_cases hk : k = x
    · subst hk
      rw [List.find?_cons_of_pos _ (by simp)]
    · rw [List.find?_cons_of_neg _ (by simpa using hk)]
      refine ih ?_
      rcases List.mem_cons.mp h with rfl | h'
      · exact absurd rfl hk
      · exact h'

/-- `Map.get` on a map in mapped form. -/
lemma mapGet_mapKey {α : Type} {ks : List String} (g : String → α)
    {x : String} (h : x ∈ ks) :
    mapGet (ks.map fun k => (k, g k)) x = some (g x) := by
  unfold mapGet
  rw [find?_mapKey g h]
  rfl

/-- `Map.set` of a present key updates the map pointwise. -/
lemma mapSet_mapKey_mem {α : Type} {ks : List String} (g : String → α)
    {x : String} (v : α) (h : x ∈ ks) :
    mapSet (ks.map fun k => (k, g k)) x v =
      ks.map fun k => (k, if k = x then v else g k) := by
  unfold mapSet
  rw [if_pos ((mapHas_mapKey ks g x).mpr h), List.map_map]
  refine List.map_congr_left fun k _ => ?_
  by_cases hk : k = x
  · subst hk; simp
  · simp [hk]

/-- `Map.set` of an absent key appends the entry. -/
lemma mapSet_mapKey_notMem {α : Type} {ks : List String} (g : String → α)
    {x : String} (v : α) (h : x ∉ ks) :
    mapSet (ks.map fun k => (k, g k)) x v =
      (ks.map fun k => (k, g k)) ++ [(x, v)] := by
  unfold mapSet
  rw [if_neg (by rw [mapHas_mapKey ks g x]; simpa using h)]

/-- A fold over a pair whose components step independently. -/
lemma foldl_pair {α β γ : Type} (u : α → γ → α) (p : β → γ → β) :
    ∀ (cs : List γ) (a : α) (b : β),
      cs.foldl (fun st c => (u st.1 c, p st.2 c)) (a, b) =
        (cs.foldl u a, cs.foldl p b) := by
  intro cs
  induction cs with
  | nil => intro a b; rfl
  | cons c cs ih => intro a b; rw [List.foldl_cons, ih]; rfl

/-! ### Closed form of the first pass -/

/-- On a present key, `bestOf` of the group succeeds with the representative. -/
lemma bestOf_eq_some_bestD {cs : List Course} {k : String}
    (h : k ∈ keysOf cs) : bestOf (groupOf cs k) = some (bestD cs k) := by
  cases hg : groupOf cs k with
  | nil => exact absurd hg (groupOf_ne_nil h)
  | cons a t =>
    unfold bestD
    rw [hg]
    rfl

/-- Appending a record of another code leaves a representative unchanged. -/
lemma bestD_concat_other {cs : List Course} {c : Course} {k : String}
    (hk : c.course_id ≠ k) : bestD (cs ++ [c]) k = bestD cs k := by
  unfold bestD
  rw [groupOf_concat, if_neg hk, List.append_nil]

/-- Appending a record of a present code updates its representative by one
strict comparison. -/
lemma bestD_concat_self {cs : List Course} (c : Course)
    (h : c.course_id ∈ keysOf cs) :
    bestD (cs ++ [c]) c.course_id =
      if qr (bestD cs c.course_id) < qr c then c
      else bestD cs c.course_id := by
  unfold bestD
  rw [groupOf_concat, if_pos rfl, bestOf_concat, bestOf_eq_some_bestD h]
  simp only [Option.getD_some]

/-- Appending a record of a new code makes it the representative. -/
lemma bestD_concat_new {cs : List Course} {c : Course}
    (h : c.course_id ∉ keysOf cs) : bestD (cs ++ [c]) c.course_id = c := by
  unfold bestD
  rw [groupOf_concat, if_pos rfl, groupOf_eq_nil h, List.nil_append]
  rfl

/-- An absent code has no professors. -/
lemma instrsOf_of_not_mem {cs : List Course} {k : String}
    (h : k ∉ keysOf cs) : instrsOf cs k = [] := by
  unfold instrsOf
  rw [groupOf_eq_nil h]
  rfl

/-- Appending a record of another code leaves a professor set unchanged. -/
lemma instrsOf_concat_other {cs : List Course} {c : Course} {k : String}
    (hk : c.course_id ≠ k) : instrsOf (cs ++ [c]) k = instrsOf cs k := by
  unfold instrsOf
  rw [groupOf_concat, if_neg hk, List.append_nil]

/-- Appending a record adds its professor to its code's set. -/
lemma instrsOf_concat_self (cs : List Course) (c : Course) :
    instrsOf (cs ++ [c]) c.course_id =
      setAdd (instrsOf cs c.course_id) c.professor := by
  unfold instrsOf setAdd
  rw [groupOf_concat, if_pos rfl, List.map_append, List.map_singleton,
    firstSeenDedup_concat]

/-- Closed form of the `uniqueCourses` fold: one entry per first-seen code,
holding that code's representative. -/
lemma uniqFold_closed (cs : List Course) :
    cs.foldl uniqStep [] = (keysOf cs).map fun k => (k, bestD cs k) := by
  induction cs using List.reverseRecOn with
  | nil => rfl
  | append_singleton cs c ih =>
    rw [List.foldl_append, List.foldl_cons, List.foldl_nil, ih, keysOf_concat]
    by_cases hmem : c.course_id ∈ keysOf cs
    · rw [if_pos hmem]
      unfold uniqStep
      rw [mapGet_mapKey _ hmem,
        (mapHas_mapKey (keysOf cs) (fun k => bestD cs k) c.course_id).mpr hmem]
      simp only [Bool.not_true, Bool.false_or, qrOpt, decide_eq_true_eq]
      by_cases hlt : qr (bestD cs c.course_id) < qr c
      · rw [if_pos hlt, mapSet_mapKey_mem _ c hmem]
        refine List.map_congr_left fun k hk => ?_
        by_cases hkc : k = c.course_id
        · subst hkc
          rw [if_pos rfl, bestD_concat_self c hmem, if_pos hlt]
        · rw [if_neg hkc, bestD_concat_other fun h => hkc h.symm]
      · rw [if_neg hlt]
        refine List.map_congr_left fun k hk => ?_
        by_cases hkc : k = c.course_id
        · subst hkc
          rw [bestD_concat_self c hmem, if_neg hlt]
        · rw [bestD_concat_other fun h => hkc h.symm]
    · rw [if_neg hmem]
      unfold uniqStep
      have hhas : mapHas ((keysOf cs).map fun k => (k, bestD cs k))
          c.course_id = false := by
        cases hb : mapHas ((keysOf cs).map fun k => (k, bestD cs k))
            c.course_id
        · rfl
        · exact absurd ((mapHas_mapKey _ _ _).mp hb) hmem
      rw [hhas]
      simp only [Bool.not_false, Bool.true_or, if_true]
      rw [mapSet_mapKey_notMem _ c hmem, List.map_append, List.map_singleton]
      congr 1
      · refine List.map_congr_left fun k hk => ?_
        rw [bestD_concat_other fun h => hmem (h ▸ hk)]
      · rw [bestD_concat_new hmem]

/-- Closed form of the `professorsByCourse` fold: one entry per first-seen
code, holding that code's first-seen professor set. -/
lemma profsFold_closed (cs : List Course) :
    cs.foldl profsStep [] = (keysOf cs).map fun k => (k, instrsOf cs k) := by
  induction cs using List.reverseRecOn with
  | nil => rfl
  | append_singleton cs c ih =>
    rw [List.foldl_append, List.foldl_cons, List.foldl_nil, ih, keysOf_concat]
    unfold profsStep
    by_cases hmem : c.course_id ∈ keysOf cs
    · rw [if_pos hmem,
        (mapHas_mapKey (keysOf cs) (fun k => instrsOf cs k) c.course_id).mpr
          hmem]
      simp only [if_true]
      rw [List.map_map]
      refine List.map_congr_left fun k hk => ?_
      by_cases hkc : k = c.course_id
      · subst hkc
        simp only [Function.comp_apply, beq_self_eq_true, if_pos]
        rw [instrsOf_concat_self]
      · simp only [Function.comp_apply]
        rw [if_neg (by simpa using hkc), instrsOf_concat_other
          fun h => hkc h.symm]
    · rw [if_neg hmem]
      have hhas : mapHas ((keysOf cs).map fun k => (k, instrsOf cs k))
          c.course_id = false := by
        cases hb : mapHas ((keysOf cs).map fun k => (k, instrsOf cs k))
            c.course_id
        · rfl
        · exact absurd ((mapHas_mapKey _ _ _).mp hb) hmem
      rw [hhas]
      simp only [Bool.false_eq_true, if_false]
      rw [List.map_append, List.map_append, List.map_singleton,
        List.map_singleton, List.map_map]
      congr 1
      · refine List.map_congr_left fun k hk => ?_
        simp only [Function.comp_apply]
        rw [if_neg (by simpa using fun h : k = c.course_id => hmem (h ▸ hk)),
          instrsOf_concat_other fun h => hmem (h ▸ hk)]
      · simp only [beq_self_eq_true, if_pos]
        rw [instrsOf_concat_self, instrsOf_of_not_mem hmem]

/-- Closed form of the second pass over a map in mapped form: each value
receives the rewrite dictated by its key's `professorsByCourse` entry. -/
lemma secondFold_closed :
    ∀ (ps : List (String × List String)) (ks : List String)
      (B : String → Course),
      (ps.map Prod.fst).Nodup → (∀ e ∈ ps, e.1 ∈ ks) →
      ps.foldl secondStep (ks.map fun k => (k, B k)) =
        ks.map fun k => (k, applyPs ps k (B k)) := by
  intro ps
  induction ps with
  | nil => intro ks B _ _; rfl
  | cons e0 ps ih =>
    intro ks B hnd hmem
    rw [List.foldl_cons]
    have he0 : e0.1 ∈ ks := hmem e0 (List.mem_cons_self _ _)
    rw [List.map_cons] at hnd
    have hnd' : (ps.map Prod.fst).Nodup := (List.nodup_cons.mp hnd).2
    have hhead : e0.1 ∉ ps.map Prod.fst := (List.nodup_cons.mp hnd).1
    have hmem' : ∀ e ∈ ps, e.1 ∈ ks :=
      fun e he => hmem e (List.mem_cons_of_mem _ he)
    have hstep : secondStep (ks.map fun k => (k, B k)) e0 =
        ks.map fun k =>
          (k, if k = e0.1 ∧ 1 < e0.2.length then
                rewriteProfessor (B e0.1) e0.2
              else B k) := by
      unfold secondStep
      by_cases hlen : 1 < e0.2.length
      · rw [if_pos hlen, mapGet_mapKey _ he0]
        dsimp only
        rw [mapSet_mapKey_mem _ _ he0]
        refine List.map_congr_left fun k hk => ?_
        by_cases hke : k = e0.1
        · subst hke; simp [hlen]
        · simp [hke]
      · rw [if_neg hlen]
        refine List.map_congr_left fun k hk => ?_
        simp [hlen]
    rw [hstep, ih ks _ hnd' hmem']
    refine List.map_congr_left fun k hk => ?_
    by_cases hke : k = e0.1
    · subst hke
      have hfind : ps.find? (fun e => e.1 == e0.1) = none := by
        rw [List.find?_eq_none]
        intro e he hbeq
        exact hhead (by
          have : e.1 = e0.1 := by simpa using hbeq
          exact this ▸ List.mem_map_of_mem Prod.fst he)
      have hap : ∀ x, applyPs ps e0.1 x = x := by
        intro x; unfold applyPs; rw [hfind]
      rw [hap]
      unfold applyPs
      rw [List.find?_cons_of_pos _ (by simp)]
      by_cases hlen : 1 < e0.2.length
      · simp [hlen]
      · simp [hlen]
    · have h1 : applyPs (e0 :: ps) k (B k) = applyPs ps k (B k) := by
        unfold applyPs
        rw [List.find?_cons_of_neg _ (by simpa using fun h => hke h.symm)]
      rw [h1]
      simp [hke]

/-- The Deduplicator in closed form: one output record per first-seen
course code, each the finished representative of its code. -/
lemma dedup_closed (cs : List Course) :
    deduplicateCourses cs = (keysOf cs).map fun k => dedupFinish cs k := by
  unfold deduplicateCourses
  dsimp only
  rw [foldl_pair, uniqFold_closed, profsFold_closed]
  rw [secondFold_closed ((keysOf cs).map fun k => (k, instrsOf cs k))
      (keysOf cs) (fun k => bestD cs k)
      (by
        rw [List.map_map]
        have hco : (Prod.fst ∘ fun k => (k, instrsOf cs k)) =
            fun k : String => k := rfl
        rw [hco, List.map_id']
        exact nodup_keysOf cs)
      (by
        intro e he
        rcases List.mem_map.mp he with ⟨k, hk, rfl⟩
        exact hk)]
  rw [List.map_map]
  refine List.map_congr_left fun k hk => ?_
  simp only [Function.comp_apply]
  unfold applyPs dedupFinish
  rw [find?_mapKey _ hk]

/-- The professor rewrite changes no other field. -/
lemma rewriteProfessor_course_id (c : Course) (s : List String) :
    (rewriteProfessor c s).course_id = c.course_id := by
  unfold rewriteProfessor
  dsimp only
  split <;> rfl

/-- The representative of a present code carries that code. -/
lemma bestD_course_id {cs : List Course} {k : String} (hk : k ∈ keysOf cs) :
    (bestD cs k).course_id = k :=
  course_id_of_mem_groupOf (bestOf_mem (bestOf_eq_some_bestD hk))

/-- The finished record of a present code carries that code. -/
lemma dedupFinish_course_id {cs : List Course} {k : String}
    (hk : k ∈ keysOf cs) : (dedupFinish cs k).course_id = k := by
  unfold dedupFinish
  split
  · rw [rewriteProfessor_course_id]
    exact bestD_course_id hk
  · exact bestD_course_id hk

/-- The output codes of the Deduplicator are exactly the first-seen keys. -/
lemma map_course_id_dedup (cs : List Course) :
    ((deduplicateCourses cs).map fun c => c.course_id) = keysOf cs := by
  rw [dedup_closed, List.map_map]
  have h : ∀ k ∈ keysOf cs,
      ((fun c => c.course_id) ∘ fun k => dedupFinish cs k) k = k :=
    fun k hk => dedupFinish_course_id hk
  rw [List.map_congr_left h, List.map_id']

/-- C4: the Deduplicator emits exactly one record per distinct course code;
each output record is its group's representative — the first record of the
group attaining the maximal rating (everything before it rated strictly
lower, everything after it no higher) — with the professor field rewritten,
when the group has several distinct professors, to the first two joined by
`", "` plus an `" & others"` marker exactly when more than two existed; and
on the concrete two-row example (ratings 4 and 4.5, professors A and B) the
output is the single 4.5 record naming both professors. -/
theorem spec_c4 (cs : List Course) :
    (((deduplicateCourses cs).map fun c => c.course_id).Nodup)
    ∧ (∀ k, k ∈ cs.map (fun c => c.course_id) ↔
        k ∈ (deduplicateCourses cs).map fun c => c.course_id)
    ∧ (∀ c ∈ deduplicateCourses cs,
        ∃ rep g1 g2,
          groupOf cs c.course_id = g1 ++ rep :: g2
          ∧ (∀ x ∈ g1, qr x < qr rep)
          ∧ (∀ x ∈ g2, qr x ≤ qr rep)
          ∧ (if 1 < (instrsOf cs c.course_id).length then
              c = { rep with
                professor :=
                  String.intercalate ", " ((instrsOf cs c.course_id).take 2)
                    ++ if 2 < (instrsOf cs c.course_id).length then
                        " & others"
                      else "" }
            else c = rep))
    ∧ deduplicateCourses [rowA, rowB] =
        [{ rowB with professor := "A, B" }] := by
  refine ⟨?_, ?_, ?_, by decide⟩
  · rw [map_course_id_dedup]
    exact nodup_keysOf cs
  · intro k
    rw [map_course_id_dedup, mem_keysOf, List.mem_map]
  · intro c hc
    rw [dedup_closed] at hc
    rcases List.mem_map.mp hc with ⟨k, hk, rfl⟩
    rw [dedupFinish_course_id hk]
    cases hg : groupOf cs k with
    | nil => exact absurd hg (groupOf_ne_nil hk)
    | cons h t =>
      have hbd : bestD cs k = bestFold h t := by
        unfold bestD
        rw [hg]
        rfl
      obtain ⟨g1, g2, hdec, h1, h2⟩ := bestFold_decomp t h
      refine ⟨bestD cs k, g1, g2, ?_, ?_, ?_, ?_⟩
      · rw [hbd]; exact hdec
      · rw [hbd]; exact h1
      · rw [hbd]; exact h2
      · by_cases hlen : 1 < (instrsOf cs k).length
        · rw [if_pos hlen]
          unfold dedupFinish
          rw [if_pos hlen]
          unfold rewriteProfessor
          dsimp only
          have htk : ((instrsOf cs k).take 2).length = 2 := by
            rw [List.length_take]
            omega
          rw [htk, if_pos (by norm_num)]
        · rw [if_neg hlen]
          unfold dedupFinish
          rw [if_neg hlen]

/-- Witness for C4: the representative clause instantiated at the concrete
two-row example. -/
theorem spec_c4_witness :
    ∃ rep g1 g2,
      groupOf [rowA, rowB]
          ({ rowB with professor := "A, B" } : Course).course_id =
        g1 ++ rep :: g2
      ∧ (∀ x ∈ g1, qr x < qr rep)
      ∧ (∀ x ∈ g2, qr x ≤ qr rep)
      ∧ (if 1 < (instrsOf [rowA, rowB]
            ({ rowB with professor := "A, B" } : Course).course_id).length then
          ({ rowB with professor := "A, B" } : Course) =
            { rep with
              professor :=
                String.intercalate ", "
                    ((instrsOf [rowA, rowB]
                      ({ rowB with professor := "A, B" } :
                        Course).course_id).take 2)
                  ++ if 2 < (instrsOf [rowA, rowB]
                        ({ rowB with professor := "A, B" } :
                          Course).course_id).length then
                      " & others"
                    else "" }
        else ({ rowB with professor := "A, B" } : Course) = rep) :=
  (spec_c4 [rowA, rowB]).2.2.1 { rowB with professor := "A, B" } (by decide)

/-- On a duplicate-free list, filtering for one present element keeps
exactly it. -/
lemma filter_beq_singleton {ks : List String} {k : String} (hnd : ks.Nodup)
    (hk : k ∈ ks) : ks.filter (fun x => x == k) = [k] := by
  induction ks with
  | nil => cases hk
  | cons a t ih =>
    rw [List.filter_cons]
    rcases List.nodup_cons.mp hnd with ⟨hat, hndt⟩
    by_cases hak : a = k
    · subst hak
      rw [if_pos (by simp)]
      have : t.filter (fun x => x == a) = [] := by
        rw [List.filter_eq_nil_iff]
        intro x hx hbeq
        have hxa : x = a := by simpa using hbeq
        exact hat (hxa ▸ hx)
      rw [this]
    · rw [if_neg (by simpa using hak)]
      exact ih hndt (by
        rcases List.mem_cons.mp hk with rfl | h'
        · exact absurd rfl hak
        · exact h')

/-- The group of a present code inside the Deduplicator's output is the
single finished record of that code. -/
lemma groupOf_dedup_singleton {cs : List Course} {k : String}
    (hk : k ∈ keysOf cs) :
    groupOf (deduplicateCourses cs) k = [dedupFinish cs k] := by
  rw [dedup_closed]
  unfold groupOf
  rw [List.filter_map]
  have hcongr : ∀ k' ∈ keysOf cs,
      ((fun c => c.course_id == k) ∘ fun k => dedupFinish cs k) k' =
        (k' == k) := by
    intro k' hk'
    simp only [Function.comp_apply]
    rw [dedupFinish_course_id hk']
  rw [List.filter_congr hcongr, filter_beq_singleton (nodup_keysOf cs) hk,
    List.map_singleton]

/-- The Deduplicator's output has the same first-seen keys. -/
lemma keysOf_dedup (cs : List Course) :
    keysOf (deduplicateCourses cs) = keysOf cs := by
  show firstSeenDedup ((deduplicateCourses cs).map fun c => c.course_id) = _
  rw [map_course_id_dedup]
  exact firstSeenDedup_of_nodup (nodup_keysOf cs)

/-- Representatives inside the output are the output records themselves. -/
lemma bestD_dedup {cs : List Course} {k : String} (hk : k ∈ keysOf cs) :
    bestD (deduplicateCourses cs) k = dedupFinish cs k := by
  unfold bestD
  rw [groupOf_dedup_singleton hk]
  rfl

/-- Professor sets inside the output are singletons. -/
lemma instrsOf_dedup {cs : List Course} {k : String} (hk : k ∈ keysOf cs) :
    instrsOf (deduplicateCourses cs) k = [(dedupFinish cs k).professor] := by
  unfold instrsOf
  rw [groupOf_dedup_singleton hk]
  rfl

/-- C8: the Deduplicator is idempotent — applied to its own output it
returns that output unchanged. -/
theorem spec_c8 (cs : List Course) :
    deduplicateCourses (deduplicateCourses cs) = deduplicateCourses cs :=
  calc deduplicateCourses (deduplicateCourses cs)
      = (keysOf cs).map fun k => dedupFinish (deduplicateCourses cs) k := by
        rw [dedup_closed (deduplicateCourses cs), keysOf_dedup]
    _ = (keysOf cs).map fun k => dedupFinish cs k := by
        refine List.map_congr_left fun k hk => ?_
        conv_lhs => unfold dedupFinish
        rw [instrsOf_dedup hk, bestD_dedup hk, if_neg (by simp)]
    _ = deduplicateCourses cs := (dedup_closed cs).symm

/-- C5: a non-empty query whose normalised token list is empty after
synonym expansion and stop-word removal makes the Matching Engine skip the
text-relevance pass entirely: the result is exactly the deduplication of
the structurally filtered set, and no filtered course's code is lost. -/
theorem spec_c5 (q : String) (f : Filters) (store : List Course)
    (hq : (jsTrim q).isEmpty = false) (hr : relevantTermsOf q = []) :
    courseServiceSearchCourses q f store =
      deduplicateCourses
        (storageSearchCourses (updateSemesterFilters q f) store)
    ∧ ∀ c ∈ storageSearchCourses (updateSemesterFilters q f) store,
        ∃ c' ∈ courseServiceSearchCourses q f store,
          c'.course_id = c.course_id := by
  have heq : courseServiceSearchCourses q f store =
      deduplicateCourses
        (storageSearchCourses (updateSemesterFilters q f) store) := by
    unfold courseServiceSearchCourses
    rw [hq]
    simp only [Bool.false_eq_true, if_false, hr, List.isEmpty_nil, if_true]
  refine ⟨heq, ?_⟩
  intro c hc
  have hk : c.course_id ∈
      keysOf (storageSearchCourses (updateSemesterFilters q f) store) :=
    mem_keysOf.mpr ⟨c, hc, rfl⟩
  refine ⟨dedupFinish
      (storageSearchCourses (updateSemesterFilters q f) store) c.course_id,
    ?_, dedupFinish_course_id hk⟩
  rw [heq, dedup_closed]
  exact List.mem_map_of_mem _ hk

/-- Witness for C5: the purely conversational query `"show me classes"`. -/
theorem spec_c5_witness :
    courseServiceSearchCourses "show me classes" {} [wl12, wl8] =
      deduplicateCourses
        (storageSearchCourses
          (updateSemesterFilters "show me classes" {}) [wl12, wl8])
    ∧ ∀ c ∈ storageSearchCourses
          (updateSemesterFilters "show me classes" {}) [wl12, wl8],
        ∃ c' ∈ courseServiceSearchCourses "show me classes" {} [wl12, wl8],
          c'.course_id = c.course_id :=
  spec_c5 "show me classes" {} [wl12, wl8] (by decide) (by decide)

end CourseSearch
